import Mathlib

/-!
Verification of the `FieldValue` tagged-union value type of the Firestore
client model layer (`Firestore/core/src/firebase/firestore/model/field_value.h`)
and of its total-ordering comparison.

The header in the repository declares the type, its `Type` tag enumeration,
the factory surface and the relational operators derived from `operator<`;
the body of `operator<` itself lives in a translation unit that is not part
of the sources, so the comparison algorithm is modelled from the
specification (§4.3 of the spec) and every definition doing so says so in
its doc comment.
-/

namespace FirestoreModel

/-- The `FieldValue::Type` tag enumeration, in exactly the declaration order
of the source header: `Null, Boolean, Long, Double, Timestamp,
ServerTimestamp, String, Blob, Reference, GeoPoint, Array, Object`. -/
inductive FieldType where
  | Null
  | Boolean
  | Long
  | Double
  | Timestamp
  | ServerTimestamp
  | String
  | Blob
  | Reference
  | GeoPoint
  | Array
  | Object
deriving DecidableEq, Repr

/-- The raw enumerator value of each `FieldValue::Type` tag, i.e. its
position in the source declaration (C++ gives the unscoped default values
`0, 1, 2, ...` in declaration order). -/
def typeRank : FieldType → ℕ
  | .Null => 0
  | .Boolean => 1
  | .Long => 2
  | .Double => 3
  | .Timestamp => 4
  | .ServerTimestamp => 5
  | .String => 6
  | .Blob => 7
  | .Reference => 8
  | .GeoPoint => 9
  | .Array => 10
  | .Object => 11

/-- Modelled from the spec: the backend **order class** of each tag
(spec §4.3 step 1): `Null` < `Boolean` < `Numbers {Long, Double}` <
`Timestamp-family {Timestamp, ServerTimestamp}` < `String` < `Blob` <
`Reference` < `GeoPoint` < `Array` < `Object`.  Long and Double share one
class, as do Timestamp and ServerTimestamp. -/
def orderClass : FieldType → ℕ
  | .Null => 0
  | .Boolean => 1
  | .Long => 2
  | .Double => 2
  | .Timestamp => 3
  | .ServerTimestamp => 3
  | .String => 4
  | .Blob => 5
  | .Reference => 6
  | .GeoPoint => 7
  | .Array => 8
  | .Object => 9

/-- The ordering-relevant content of an IEEE-754 `double` payload: a double
is NaN, one of the two infinities, or a finite value; every finite double
is exactly representable as a rational number, so finite payloads carry a
`ℚ`.  The same type serves as the common numeric value that Long and
Double payloads are unified into before comparing (spec §4.3 step 2). -/
inductive NumVal where
  | nan
  | negInf
  | finite (q : ℚ)
  | posInf
deriving DecidableEq, Repr

/-- The `Timestamp` payload: seconds plus nanoseconds (the spec stores even
out-of-range components as-is, so both components are unconstrained
integers). -/
structure Timestamp where
  seconds : ℤ
  nanos : ℤ
deriving DecidableEq, Repr

/-- The `ServerTimestamp` struct of the source header: a local write time,
a previous value, and the flag `has_previous_value_` recording whether the
previous value was supplied. -/
structure ServerTimestampData where
  local_write_time : Timestamp
  previous_value : Timestamp
  has_previous_value : Bool
deriving DecidableEq, Repr

/-- The `GeoPoint` payload: a latitude/longitude pair of finite floating
values (finite doubles, hence rationals). -/
structure GeoPoint where
  latitude : ℚ
  longitude : ℚ
deriving DecidableEq, Repr

/-- The `FieldValue` tagged union, one constructor per member of the payload
union in the source header (`Null` carries no payload; the header's union
has **no** payload member for the `Reference` tag and the `ReferenceValue`
factory is commented out, so the model has no `Reference` constructor).
Strings and blobs are modelled as their byte sequences, objects as their
key-sorted entry list (C++ `std::map` iterates in key order). -/
inductive FieldValue where
  | null
  | boolean (b : Bool)
  | long (i : ℤ)
  | double (d : NumVal)
  | timestamp (t : Timestamp)
  | serverTimestamp (st : ServerTimestampData)
  | string (bytes : List ℕ)
  | blob (bytes : List ℕ)
  | geoPoint (g : GeoPoint)
  | array (elements : List FieldValue)
  | object (entries : List (List ℕ × FieldValue))
deriving Repr

/-- `FieldValue::type()`: the tag of the active variant. -/
def FieldValue.fieldType : FieldValue → FieldType
  | .null => .Null
  | .boolean _ => .Boolean
  | .long _ => .Long
  | .double _ => .Double
  | .timestamp _ => .Timestamp
  | .serverTimestamp _ => .ServerTimestamp
  | .string _ => .String
  | .blob _ => .Blob
  | .geoPoint _ => .GeoPoint
  | .array _ => .Array
  | .object _ => .Object

/-- The default constructor `FieldValue() : tag_(Type::Null)`: it sets the
tag to `Null` and constructs no payload, so the resulting value is the
payload-free `null` variant. -/
def defaultFieldValue : FieldValue := .null

/-! ### Factory methods (construction surface of the header) -/

/-- `FieldValue::NullValue()`: the canonical Null value. -/
def NullValue : FieldValue := .null

/-- `FieldValue::TrueValue()`: the canonical Boolean true value. -/
def TrueValue : FieldValue := .boolean true

/-- `FieldValue::FalseValue()`: the canonical Boolean false value. -/
def FalseValue : FieldValue := .boolean false

/-- `FieldValue::BooleanValue(bool)`: the True or False value, by flag. -/
def BooleanValue (value : Bool) : FieldValue := .boolean value

/-- `FieldValue::NanValue()`: the canonical NaN-valued Double. -/
def NanValue : FieldValue := .double .nan

/-- `FieldValue::IntegerValue(int64_t)`: a Long-tagged value. -/
def IntegerValue (value : ℤ) : FieldValue := .long value

/-- `FieldValue::DoubleValue(double)`: a Double-tagged value. -/
def DoubleValue (value : NumVal) : FieldValue := .double value

/-- `FieldValue::TimestampValue(const Timestamp&)`. -/
def TimestampValue (value : Timestamp) : FieldValue := .timestamp value

/-- `FieldValue::ServerTimestampValue(local_write_time, previous_value)`:
the two-argument overload records that a previous value is present. -/
def ServerTimestampValue (local_write_time previous_value : Timestamp) :
    FieldValue :=
  .serverTimestamp ⟨local_write_time, previous_value, true⟩

/-- `FieldValue::ServerTimestampValue(local_write_time)`: the one-argument
overload records that no previous value is present (the payload field is
left at a default). -/
def ServerTimestampValueNoPrev (local_write_time : Timestamp) : FieldValue :=
  .serverTimestamp ⟨local_write_time, ⟨0, 0⟩, false⟩

/-- `FieldValue::StringValue(...)`: a String-tagged value holding the UTF-8
byte sequence of the text. -/
def StringValue (bytes : List ℕ) : FieldValue := .string bytes

/-- `FieldValue::BlobValue(const uint8_t*, size_t)`: a Blob-tagged value
holding a copy of the byte sequence. -/
def BlobValue (bytes : List ℕ) : FieldValue := .blob bytes

/-- `FieldValue::GeoPointValue(const GeoPoint&)`. -/
def GeoPointValue (value : GeoPoint) : FieldValue := .geoPoint value

/-- `FieldValue::ArrayValue(...)`: an Array-tagged value owning the given
element sequence. -/
def ArrayValue (value : List FieldValue) : FieldValue := .array value

/-- `FieldValue::ObjectValue(...)`: an Object-tagged value owning the given
key-sorted entry list. -/
def ObjectValue (value : List (List ℕ × FieldValue)) : FieldValue :=
  .object value

/-! ### The comparison algorithm (spec §4.3), modelled from the spec -/

/-- Modelled from the spec: comparison of two unified numeric values
(spec §4.3 step 2).  NaN is checked first and sorts strictly below every
other number, two NaNs compare equal; among the rest, negative infinity is
least, positive infinity greatest, and finite values compare as rationals.
`numRank` is the NaN/negInf/finite/posInf stratification used for that. -/
def numRank : NumVal → ℕ
  | .nan => 0
  | .negInf => 1
  | .finite _ => 2
  | .posInf => 3

/-- Modelled from the spec: the Numbers-class payload comparison; see
`numRank`. -/
def cmpNum : NumVal → NumVal → Ordering
  | .finite p, .finite q => cmp p q
  | a, b => cmp (numRank a) (numRank b)

/-- Modelled from the spec: a committed Timestamp compares by
`(seconds, nanoseconds)` lexicographically (spec §4.3 step 3). -/
def cmpTimestamp (a b : Timestamp) : Ordering :=
  (cmp a.seconds b.seconds).then (cmp a.nanos b.nanos)

/-- Modelled from the spec: byte sequences (String and Blob payloads, and
Object keys) compare in lexicographic unsigned-byte order
(spec §4.3 step 4). -/
def cmpBytes : List ℕ → List ℕ → Ordering
  | [], [] => .eq
  | [], _ :: _ => .lt
  | _ :: _, [] => .gt
  | a :: as, b :: bs => (cmp a b).then (cmpBytes as bs)

mutual

/-- Modelled from the spec: the body of `operator<`'s underlying total
comparison, absent from the sources (only its declaration is in the
header).  Values in different order classes compare purely by class rank
(step 1); within a class: Booleans false-before-true, Numbers by
`cmpNum` after unifying Long and Double, the Timestamp family by the
relevant time with the spec §9 documented rule that a pending
ServerTimestamp sorts after every committed Timestamp, String/Blob by
bytes, GeoPoint latitude-then-longitude, Array and Object
lexicographically by the recursive ordering.  The ServerTimestamp
`previous_value` payload and its presence flag are never consulted. -/
def fieldCompare : FieldValue → FieldValue → Ordering
  | .null, .null => .eq
  | .boolean x, .boolean y => cmp x y
  | .long x, .long y => cmpNum (.finite x) (.finite y)
  | .long x, .double y => cmpNum (.finite x) y
  | .double x, .long y => cmpNum x (.finite y)
  | .double x, .double y => cmpNum x y
  | .timestamp x, .timestamp y => cmpTimestamp x y
  | .timestamp _, .serverTimestamp _ => .lt
  | .serverTimestamp _, .timestamp _ => .gt
  | .serverTimestamp x, .serverTimestamp y =>
      cmpTimestamp x.local_write_time y.local_write_time
  | .string x, .string y => cmpBytes x y
  | .blob x, .blob y => cmpBytes x y
  | .geoPoint x, .geoPoint y =>
      (cmp x.latitude y.latitude).then (cmp x.longitude y.longitude)
  | .array xs, .array ys => cmpArray xs ys
  | .object xs, .object ys => cmpObject xs ys
  | a, b => cmp (orderClass a.fieldType) (orderClass b.fieldType)

/-- Modelled from the spec: lexicographic comparison of Array elements
pairwise by the recursive ordering; a strict-prefix array sorts first
(spec §4.3 step 6). -/
def cmpArray : List FieldValue → List FieldValue → Ordering
  | [], [] => .eq
  | [], _ :: _ => .lt
  | _ :: _, [] => .gt
  | x :: xs, y :: ys => (fieldCompare x y).then (cmpArray xs ys)

/-- Modelled from the spec: Object comparison walks entries in key-sorted
order, comparing key strings first, then values for equal keys; a
strict-prefix object sorts first (spec §4.3 step 7). -/
def cmpObject :
    List (List ℕ × FieldValue) → List (List ℕ × FieldValue) → Ordering
  | [], [] => .eq
  | [], _ :: _ => .lt
  | _ :: _, [] => .gt
  | (k1, v1) :: r1, (k2, v2) :: r2 =>
      (cmpBytes k1 k2).then ((fieldCompare v1 v2).then (cmpObject r1 r2))

end

/-! ### The relational operators of the header, derived from `operator<` -/

/-- Modelled from the spec: `operator<(lhs, rhs)`, the sole primitive
comparison of the header; it holds exactly when the total comparison says
the left value is less. -/
def flt (lhs rhs : FieldValue) : Bool := fieldCompare lhs rhs == Ordering.lt

/-- `operator>(lhs, rhs)`, inline in the header: `rhs < lhs`. -/
def fgt (lhs rhs : FieldValue) : Bool := flt rhs lhs

/-- `operator>=(lhs, rhs)`, inline in the header: `!(lhs < rhs)`. -/
def fge (lhs rhs : FieldValue) : Bool := !(flt lhs rhs)

/-- `operator<=(lhs, rhs)`, inline in the header: `!(lhs > rhs)`. -/
def fle (lhs rhs : FieldValue) : Bool := !(fgt lhs rhs)

/-- `operator!=(lhs, rhs)`, inline in the header: `lhs < rhs || lhs > rhs`. -/
def fne (lhs rhs : FieldValue) : Bool := flt lhs rhs || fgt lhs rhs

/-- `operator==(lhs, rhs)`, inline in the header: `!(lhs != rhs)`. -/
def feq (lhs rhs : FieldValue) : Bool := !(fne lhs rhs)

/-! ### Generic ordering lemmas -/

theorem cmp_ne_gt_iff_le {α : Type} [LinearOrder α] {a b : α} :
    cmp a b ≠ Ordering.gt ↔ a ≤ b := by
  rw [Ne, cmp_eq_gt_iff, not_lt]

theorem then_ne_gt {o p : Ordering} :
    o.then p ≠ Ordering.gt ↔ o = .lt ∨ (o = .eq ∧ p ≠ .gt) := by
  cases o <;> simp [Ordering.then]

theorem then_eq_eq_iff {o p : Ordering} :
    o.then p = Ordering.eq ↔ o = .eq ∧ p = .eq := by
  cases o <;> simp [Ordering.then]

/-- Composition step for a lexicographic pair of comparisons: from the two
`≤`-facts, transitivity-style facts about the leading comparisons and
transitivity of the trailing ones, the composed comparison is `≤`. -/
theorem lex2_le_trans {o1 o2 o3 p1 p2 p3 : Ordering}
    (h1 : o1.then p1 ≠ .gt) (h2 : o2.then p2 ≠ .gt)
    (hLL : o1 = .lt → o2 = .lt → o3 = .lt)
    (hE1 : o1 = .eq → o3 = o2)
    (hE2 : o2 = .eq → o3 = o1)
    (hp : p1 ≠ .gt → p2 ≠ .gt → p3 ≠ .gt) :
    o3.then p3 ≠ Ordering.gt := by
  rw [then_ne_gt] at h1 h2 ⊢
  rcases h1 with h1 | ⟨h1, hp1⟩
  · rcases h2 with h2 | ⟨h2, _⟩
    · exact Or.inl (hLL h1 h2)
    · exact Or.inl ((hE2 h2).trans h1)
  · rcases h2 with h2 | ⟨h2, hp2⟩
    · exact Or.inl ((hE1 h1).trans h2)
    · exact Or.inr ⟨(hE1 h1).trans h2, hp hp1 hp2⟩

/-! ### Payload comparator lemmas -/

theorem cmpNum_eq_iff {a b : NumVal} : cmpNum a b = Ordering.eq ↔ a = b := by
  cases a <;> cases b <;>
    simp [cmpNum, numRank, cmp_eq_eq_iff]

theorem cmpNum_refl (a : NumVal) : cmpNum a a = Ordering.eq :=
  cmpNum_eq_iff.2 rfl

theorem cmpNum_swap (a b : NumVal) : (cmpNum a b).swap = cmpNum b a := by
  cases a <;> cases b <;> simp [cmpNum, numRank] <;> try rfl

theorem cmpNum_le_trans {a b c : NumVal} (h1 : cmpNum a b ≠ Ordering.gt)
    (h2 : cmpNum b c ≠ Ordering.gt) : cmpNum a c ≠ Ordering.gt := by
  cases a <;> cases b <;> cases c <;>
    simp only [cmpNum, numRank, cmp_ne_gt_iff_le] at h1 h2 ⊢ <;>
    first
      | exact le_trans h1 h2
      | exact absurd h1 (by omega)
      | exact absurd h2 (by omega)
      | omega

theorem cmpTimestamp_eq_iff {a b : Timestamp} :
    cmpTimestamp a b = Ordering.eq ↔ a = b := by
  cases a; cases b
  simp [cmpTimestamp, then_eq_eq_iff, cmp_eq_eq_iff, Timestamp.mk.injEq]

theorem cmpTimestamp_refl (a : Timestamp) : cmpTimestamp a a = Ordering.eq :=
  cmpTimestamp_eq_iff.2 rfl

theorem cmpTimestamp_swap (a b : Timestamp) :
    (cmpTimestamp a b).swap = cmpTimestamp b a := by
  simp [cmpTimestamp, Ordering.swap_then, cmp_swap]

theorem cmpTimestamp_le_trans {a b c : Timestamp}
    (h1 : cmpTimestamp a b ≠ Ordering.gt)
    (h2 : cmpTimestamp b c ≠ Ordering.gt) :
    cmpTimestamp a c ≠ Ordering.gt := by
  refine lex2_le_trans h1 h2 ?_ ?_ ?_ ?_
  · rw [cmp_eq_lt_iff, cmp_eq_lt_iff, cmp_eq_lt_iff]
    exact lt_trans
  · rw [cmp_eq_eq_iff]; intro h; rw [h]
  · rw [cmp_eq_eq_iff]; intro h; rw [h]
  · rw [cmp_ne_gt_iff_le, cmp_ne_gt_iff_le, cmp_ne_gt_iff_le]
    exact le_trans

theorem cmpBytes_eq_iff : ∀ {a b : List ℕ},
    cmpBytes a b = Ordering.eq ↔ a = b
  | [], [] => by simp [cmpBytes]
  | [], _ :: _ => by simp [cmpBytes]
  | _ :: _, [] => by simp [cmpBytes]
  | x :: xs, y :: ys => by
    simp [cmpBytes, then_eq_eq_iff, cmp_eq_eq_iff, cmpBytes_eq_iff]

theorem cmpBytes_refl (a : List ℕ) : cmpBytes a a = Ordering.eq :=
  cmpBytes_eq_iff.2 rfl

theorem cmpBytes_swap : ∀ (a b : List ℕ),
    (cmpBytes a b).swap = cmpBytes b a
  | [], [] => rfl
  | [], _ :: _ => rfl
  | _ :: _, [] => rfl
  | x :: xs, y :: ys => by
    simp [cmpBytes, Ordering.swap_then, cmp_swap, cmpBytes_swap xs ys]

theorem cmpBytes_le_trans : ∀ (a b c : List ℕ),
    cmpBytes a b ≠ Ordering.gt → cmpBytes b c ≠ Ordering.gt →
    cmpBytes a c ≠ Ordering.gt
  | [], _, [] => by intro _ _; simp [cmpBytes]
  | [], _, _ :: _ => by intro _ _; simp [cmpBytes]
  | _ :: _, [], _ => by intro h1 _; exact absurd rfl h1
  | _ :: _, _ :: _, [] => by intro _ h2; exact absurd rfl h2
  | x :: xs, y :: ys, z :: zs => by
    intro h1 h2
    simp only [cmpBytes] at h1 h2 ⊢
    refine lex2_le_trans h1 h2 ?_ ?_ ?_ (cmpBytes_le_trans xs ys zs)
    · rw [cmp_eq_lt_iff, cmp_eq_lt_iff, cmp_eq_lt_iff]
      exact lt_trans
    · rw [cmp_eq_eq_iff]; intro h; rw [h]
    · rw [cmp_eq_eq_iff]; intro h; rw [h]

theorem geoCmp_eq_iff {x y : GeoPoint} :
    (cmp x.latitude y.latitude).then (cmp x.longitude y.longitude) =
      Ordering.eq ↔ x = y := by
  cases x; cases y
  simp [then_eq_eq_iff, cmp_eq_eq_iff, GeoPoint.mk.injEq]

/-! ### Symmetry of the recursive comparison -/

mutual

theorem fieldCompare_swap (a b : FieldValue) :
    (fieldCompare a b).swap = fieldCompare b a := by
  cases a <;> cases b <;>
    simp only [fieldCompare] <;>
    first
      | rfl
      | exact cmp_swap _ _
      | exact cmpNum_swap _ _
      | exact cmpTimestamp_swap _ _
      | exact cmpBytes_swap _ _
      | rw [Ordering.swap_then, cmp_swap, cmp_swap]
      | exact cmpArray_swap _ _
      | exact cmpObject_swap _ _
termination_by sizeOf a + sizeOf b

theorem cmpArray_swap (as bs : List FieldValue) :
    (cmpArray as bs).swap = cmpArray bs as := by
  cases as with
  | nil => cases bs <;> rfl
  | cons x xs =>
    cases bs with
    | nil => rfl
    | cons y ys =>
      simp only [cmpArray, Ordering.swap_then, fieldCompare_swap x y,
        cmpArray_swap xs ys]
termination_by sizeOf as + sizeOf bs

theorem cmpObject_swap (as bs : List (List ℕ × FieldValue)) :
    (cmpObject as bs).swap = cmpObject bs as := by
  cases as with
  | nil => cases bs <;> rfl
  | cons e1 r1 =>
    cases bs with
    | nil => rfl
    | cons e2 r2 =>
      obtain ⟨k1, v1⟩ := e1
      obtain ⟨k2, v2⟩ := e2
      simp only [cmpObject, Ordering.swap_then, cmpBytes_swap k1 k2,
        fieldCompare_swap v1 v2, cmpObject_swap r1 r2]
termination_by sizeOf as + sizeOf bs

end

/-! ### Equivalence is a congruence for the recursive comparison -/

mutual

theorem fieldCompare_congr (a b c : FieldValue)
    (h : fieldCompare a b = Ordering.eq) :
    fieldCompare b c = fieldCompare a c := by
  cases a <;> cases b <;>
    first
      | rfl
      | (simp only [fieldCompare] at h
         first
           | exact Ordering.noConfusion h
           | (obtain rfl := (cmp_eq_eq_iff _ _).1 h; rfl)
           | (obtain rfl := cmpNum_eq_iff.1 h; rfl)
           | (have h' := cmpNum_eq_iff.1 h; injection h' with h''
              obtain rfl := Int.cast_injective h''; rfl)
           | (obtain rfl := cmpNum_eq_iff.1 h; cases c <;> rfl)
           | (obtain rfl := cmpTimestamp_eq_iff.1 h; rfl)
           | (have h' := cmpTimestamp_eq_iff.1 h
              cases c <;>
                simp only [fieldCompare, FieldValue.fieldType, orderClass, h'])
           | (obtain rfl := cmpBytes_eq_iff.1 h; rfl)
           | (obtain rfl := geoCmp_eq_iff.1 h; rfl)
           | (cases c <;>
               first
                 | rfl
                 | (simp only [fieldCompare]
                    exact cmpArray_congr _ _ _ h)
                 | (simp only [fieldCompare]
                    exact cmpObject_congr _ _ _ h)))
termination_by sizeOf a + sizeOf b + sizeOf c
decreasing_by all_goals (subst_vars; simp_wf; omega)

theorem cmpArray_congr (as bs cs : List FieldValue)
    (h : cmpArray as bs = Ordering.eq) :
    cmpArray bs cs = cmpArray as cs := by
  cases as with
  | nil =>
    cases bs with
    | nil => rfl
    | cons y ys => exact Ordering.noConfusion h
  | cons x xs =>
    cases bs with
    | nil => exact Ordering.noConfusion h
    | cons y ys =>
      rw [cmpArray, then_eq_eq_iff] at h
      cases cs with
      | nil => rfl
      | cons z zs =>
        simp only [cmpArray]
        rw [fieldCompare_congr x y z h.1, cmpArray_congr xs ys zs h.2]
termination_by sizeOf as + sizeOf bs + sizeOf cs
decreasing_by all_goals (subst_vars; simp_wf; omega)

theorem cmpObject_congr :
    ∀ (as bs cs : List (List ℕ × FieldValue)),
      cmpObject as bs = Ordering.eq → cmpObject bs cs = cmpObject as cs
  | [], [], _ => by intro _; rfl
  | [], _ :: _, _ => by intro h; exact Ordering.noConfusion h
  | _ :: _, [], _ => by intro h; exact Ordering.noConfusion h
  | (k1, v1) :: r1, (k2, v2) :: r2, [] => by intro _; rfl
  | (k1, v1) :: r1, (k2, v2) :: r2, (k3, v3) :: r3 => by
    intro h
    rw [cmpObject, then_eq_eq_iff, then_eq_eq_iff] at h
    obtain ⟨hk, hv, hr⟩ := h
    obtain rfl := cmpBytes_eq_iff.1 hk
    simp only [cmpObject]
    rw [fieldCompare_congr v1 v2 v3 hv, cmpObject_congr r1 r2 r3 hr]
termination_by as bs cs => sizeOf as + sizeOf bs + sizeOf cs
decreasing_by all_goals (subst_vars; simp_wf; omega)

end

/-! ### Transitivity of the recursive comparison -/

theorem cmpBytes_lt_trans {a b c : List ℕ} (h1 : cmpBytes a b = Ordering.lt)
    (h2 : cmpBytes b c = Ordering.lt) : cmpBytes a c = Ordering.lt := by
  have hle := cmpBytes_le_trans a b c (by simp [h1]) (by simp [h2])
  rcases e : cmpBytes a c with _ | _ | _
  · rfl
  · obtain rfl := cmpBytes_eq_iff.1 e
    have hswap : cmpBytes b a = Ordering.gt := by
      rw [← cmpBytes_swap a b, h1]; rfl
    rw [h2] at hswap
    exact Ordering.noConfusion hswap
  · exact absurd e hle

theorem cmpPair_le_trans {α β : Type} [LinearOrder α] [LinearOrder β]
    {a1 b1 c1 : α} {a2 b2 c2 : β}
    (h1 : (cmp a1 b1).then (cmp a2 b2) ≠ Ordering.gt)
    (h2 : (cmp b1 c1).then (cmp b2 c2) ≠ Ordering.gt) :
    (cmp a1 c1).then (cmp a2 c2) ≠ Ordering.gt := by
  refine lex2_le_trans h1 h2 ?_ ?_ ?_ ?_
  · rw [cmp_eq_lt_iff, cmp_eq_lt_iff, cmp_eq_lt_iff]
    exact lt_trans
  · rw [cmp_eq_eq_iff]; intro h; rw [h]
  · rw [cmp_eq_eq_iff]; intro h; rw [h]
  · rw [cmp_ne_gt_iff_le, cmp_ne_gt_iff_le, cmp_ne_gt_iff_le]
    exact le_trans

theorem fieldCompare_congr_right (a b c : FieldValue)
    (h : fieldCompare b c = Ordering.eq) :
    fieldCompare a b = fieldCompare a c := by
  have h' := fieldCompare_congr b c a h
  have e1 := fieldCompare_swap b a
  have e2 := fieldCompare_swap c a
  rw [← e1, ← e2, h']

/-- Modelled from the spec: values in different order classes compare purely
by class rank, with no payload inspection (spec §4.3 step 1). -/
theorem fieldCompare_cross_class (a b : FieldValue)
    (h : orderClass a.fieldType ≠ orderClass b.fieldType) :
    fieldCompare a b = cmp (orderClass a.fieldType) (orderClass b.fieldType) := by
  cases a <;> cases b <;>
    first
      | exact absurd rfl h
      | rfl

theorem fieldCompare_lt_of_class_lt (a b : FieldValue)
    (h : orderClass a.fieldType < orderClass b.fieldType) :
    fieldCompare a b = Ordering.lt := by
  rw [fieldCompare_cross_class a b (Nat.ne_of_lt h)]
  exact (cmp_eq_lt_iff _ _).2 h

theorem class_le_of_not_gt (a b : FieldValue)
    (h : fieldCompare a b ≠ Ordering.gt) :
    orderClass a.fieldType ≤ orderClass b.fieldType := by
  by_contra hx
  push_neg at hx
  refine h ?_
  rw [fieldCompare_cross_class a b (Nat.ne_of_lt hx).symm]
  exact (cmp_eq_gt_iff _ _).2 hx

mutual

theorem fieldCompare_le_trans (a b c : FieldValue)
    (h1 : fieldCompare a b ≠ Ordering.gt)
    (h2 : fieldCompare b c ≠ Ordering.gt) :
    fieldCompare a c ≠ Ordering.gt := by
  have hab := class_le_of_not_gt a b h1
  have hbc := class_le_of_not_gt b c h2
  rcases Nat.lt_or_ge (orderClass a.fieldType) (orderClass c.fieldType)
    with hlt | hge
  · rw [fieldCompare_lt_of_class_lt a c hlt]; simp
  · have hac : orderClass a.fieldType = orderClass c.fieldType :=
      le_antisymm (le_trans hab hbc) hge
    have hab2 : orderClass a.fieldType = orderClass b.fieldType := by omega
    cases a <;> cases b <;> cases c <;>
      first
        | (revert hab2; simp [FieldValue.fieldType, orderClass]; done)
        | (revert hac; simp [FieldValue.fieldType, orderClass]; done)
        | exact absurd rfl h1
        | exact absurd rfl h2
        | (simp [fieldCompare]; done)
        | (simp only [fieldCompare] at h1 h2 ⊢
           first
             | (rw [cmp_ne_gt_iff_le] at h1 h2 ⊢; exact le_trans h1 h2)
             | exact cmpNum_le_trans h1 h2
             | exact cmpTimestamp_le_trans h1 h2
             | exact cmpBytes_le_trans _ _ _ h1 h2
             | exact cmpPair_le_trans h1 h2
             | exact cmpArray_le_trans _ _ _ h1 h2
             | exact cmpObject_le_trans _ _ _ h1 h2)
termination_by sizeOf a + sizeOf b + sizeOf c
decreasing_by all_goals (subst_vars; simp_wf; omega)

theorem cmpArray_le_trans :
    ∀ (as bs cs : List FieldValue),
      cmpArray as bs ≠ Ordering.gt → cmpArray bs cs ≠ Ordering.gt →
      cmpArray as cs ≠ Ordering.gt
  | [], _, [] => by intro _ _; simp [cmpArray]
  | [], _, _ :: _ => by intro _ _; simp [cmpArray]
  | _ :: _, [], _ => by intro h1 _; exact absurd rfl h1
  | _ :: _, _ :: _, [] => by intro _ h2; exact absurd rfl h2
  | x :: xs, y :: ys, z :: zs => by
    intro h1 h2
    simp only [cmpArray] at h1 h2 ⊢
    refine lex2_le_trans h1 h2 ?_ ?_ ?_ (cmpArray_le_trans xs ys zs)
    · intro hxy hyz
      have hxz := fieldCompare_le_trans x y z (by simp [hxy]) (by simp [hyz])
      rcases e : fieldCompare x z with _ | _ | _
      · rfl
      · have hc := fieldCompare_congr x z y e
        have hzy : fieldCompare z y = Ordering.gt := by
          rw [← fieldCompare_swap y z, hyz]; rfl
        rw [hzy, hxy] at hc
        exact Ordering.noConfusion hc
      · exact absurd e hxz
    · intro h
      exact (fieldCompare_congr x y z h).symm
    · intro h
      exact (fieldCompare_congr_right x y z h).symm
termination_by as bs cs => sizeOf as + sizeOf bs + sizeOf cs
decreasing_by all_goals (subst_vars; simp_wf; omega)

theorem cmpObject_le_trans :
    ∀ (as bs cs : List (List ℕ × FieldValue)),
      cmpObject as bs ≠ Ordering.gt → cmpObject bs cs ≠ Ordering.gt →
      cmpObject as cs ≠ Ordering.gt
  | [], _, [] => by intro _ _; simp [cmpObject]
  | [], _, _ :: _ => by intro _ _; simp [cmpObject]
  | _ :: _, [], _ => by intro h1 _; exact absurd rfl h1
  | _ :: _, _ :: _, [] => by intro _ h2; exact absurd rfl h2
  | (k1, v1) :: r1, (k2, v2) :: r2, (k3, v3) :: r3 => by
    intro h1 h2
    simp only [cmpObject] at h1 h2 ⊢
    refine lex2_le_trans h1 h2 ?_ ?_ ?_ ?_
    · exact cmpBytes_lt_trans
    · intro h
      obtain rfl := cmpBytes_eq_iff.1 h; rfl
    · intro h
      obtain rfl := cmpBytes_eq_iff.1 h; rfl
    · intro hp1 hp2
      refine lex2_le_trans hp1 hp2 ?_ ?_ ?_ (cmpObject_le_trans r1 r2 r3)
      · intro hxy hyz
        have hxz := fieldCompare_le_trans v1 v2 v3 (by simp [hxy])
          (by simp [hyz])
        rcases e : fieldCompare v1 v3 with _ | _ | _
        · rfl
        · have hc := fieldCompare_congr v1 v3 v2 e
          have hzy : fieldCompare v3 v2 = Ordering.gt := by
            rw [← fieldCompare_swap v2 v3, hyz]; rfl
          rw [hzy, hxy] at hc
          exact Ordering.noConfusion hc
        · exact absurd e hxz
      · intro h
        exact (fieldCompare_congr v1 v2 v3 h).symm
      · intro h
        exact (fieldCompare_congr_right v1 v2 v3 h).symm
termination_by as bs cs => sizeOf as + sizeOf bs + sizeOf cs
decreasing_by all_goals (subst_vars; simp_wf; omega)

end

/-! ### Derived order facts -/

theorem fieldCompare_refl (a : FieldValue) : fieldCompare a a = Ordering.eq := by
  have h := fieldCompare_swap a a
  rcases e : fieldCompare a a with _ | _ | _
  · rw [e] at h; exact Ordering.noConfusion h
  · rfl
  · rw [e] at h; exact Ordering.noConfusion h

theorem fieldCompare_lt_trans {a b c : FieldValue}
    (h1 : fieldCompare a b = Ordering.lt) (h2 : fieldCompare b c = Ordering.lt) :
    fieldCompare a c = Ordering.lt := by
  have hle := fieldCompare_le_trans a b c (by simp [h1]) (by simp [h2])
  rcases e : fieldCompare a c with _ | _ | _
  · rfl
  · have hc := fieldCompare_congr a c b e
    have hcb : fieldCompare c b = Ordering.gt := by
      rw [← fieldCompare_swap b c, h2]; rfl
    rw [hcb, h1] at hc
    exact Ordering.noConfusion hc
  · exact absurd e hle

theorem cmpArray_self_append (y : FieldValue) :
    ∀ (xs rest : List FieldValue),
      cmpArray xs (xs ++ y :: rest) = Ordering.lt
  | [], _ => rfl
  | x :: xs, rest => by
    have ih := cmpArray_self_append y xs rest
    show (fieldCompare x x).then (cmpArray xs (xs ++ y :: rest)) = Ordering.lt
    rw [fieldCompare_refl x, ih]
    rfl

theorem flt_true_iff {a b : FieldValue} :
    flt a b = true ↔ fieldCompare a b = Ordering.lt := by
  rcases e : fieldCompare a b with _ | _ | _ <;> simp only [flt, e] <;> decide

theorem flt_false_iff {a b : FieldValue} :
    flt a b = false ↔ fieldCompare a b ≠ Ordering.lt := by
  rcases e : fieldCompare a b with _ | _ | _ <;> simp only [flt, e] <;> decide

theorem feq_true_iff {a b : FieldValue} :
    feq a b = true ↔ fieldCompare a b = Ordering.eq := by
  have hs := fieldCompare_swap a b
  rcases e : fieldCompare a b with _ | _ | _ <;> rw [e] at hs <;>
    simp only [feq, fne, flt, fgt, e, ← hs] <;> decide

theorem feq_false_iff {a b : FieldValue} :
    feq a b = false ↔ fieldCompare a b ≠ Ordering.eq := by
  rw [Ne, ← feq_true_iff]
  cases feq a b <;> simp

/-! ### The claims -/

/-- C1: the comparison operator `<` on `FieldValue` is a strict total order:
`a < a` is false for every `a` (irreflexive); `a < b` and `b < c` imply
`a < c` (transitive); and for every pair exactly one of `a < b`, `a == b`,
`b < a` holds. -/
theorem c1_lt_strict_total_order (a b c : FieldValue) :
    flt a a = false ∧
    (flt a b = true → flt b c = true → flt a c = true) ∧
    ((flt a b = true ∧ feq a b = false ∧ flt b a = false) ∨
     (flt a b = false ∧ feq a b = true ∧ flt b a = false) ∨
     (flt a b = false ∧ feq a b = false ∧ flt b a = true)) := by
  refine ⟨?_, ?_, ?_⟩
  · rw [flt_false_iff, fieldCompare_refl]; simp
  · rw [flt_true_iff, flt_true_iff, flt_true_iff]
    exact fieldCompare_lt_trans
  · have hs := fieldCompare_swap a b
    rcases e : fieldCompare a b with _ | _ | _ <;> rw [e] at hs
    · refine Or.inl ⟨flt_true_iff.2 e, feq_false_iff.2 (by simp [e]),
        flt_false_iff.2 ?_⟩
      rw [← hs]; decide
    · refine Or.inr (Or.inl ⟨flt_false_iff.2 (by simp [e]), feq_true_iff.2 e,
        flt_false_iff.2 ?_⟩)
      rw [← hs]; decide
    · refine Or.inr (Or.inr ⟨flt_false_iff.2 (by simp [e]),
        feq_false_iff.2 (by simp [e]), flt_true_iff.2 ?_⟩)
      rw [← hs]; rfl

/-- Witness for C1 at concrete inputs: transitivity applied to
`Null < false` and `false < true` yields `Null < true`. -/
theorem c1_witness : flt NullValue TrueValue = true :=
  (c1_lt_strict_total_order NullValue FalseValue TrueValue).2.1 rfl rfl

/-- C2: values whose types lie in different order classes compare purely by
class rank, with no payload inspection; in particular
`NullValue() < FalseValue() < TrueValue() < IntegerValue(-5) <
StringValue("") <` any `BlobValue <` any `GeoPointValue <` any
`ArrayValue <` any `ObjectValue`. -/
theorem c2_cross_class_by_rank (a b : FieldValue) (bs : List ℕ) (g : GeoPoint)
    (xs : List FieldValue) (es : List (List ℕ × FieldValue))
    (h : orderClass a.fieldType ≠ orderClass b.fieldType) :
    fieldCompare a b = cmp (orderClass a.fieldType) (orderClass b.fieldType) ∧
    flt NullValue FalseValue = true ∧
    flt FalseValue TrueValue = true ∧
    flt TrueValue (IntegerValue (-5)) = true ∧
    flt (IntegerValue (-5)) (StringValue []) = true ∧
    flt (StringValue []) (BlobValue bs) = true ∧
    flt (BlobValue bs) (GeoPointValue g) = true ∧
    flt (GeoPointValue g) (ArrayValue xs) = true ∧
    flt (ArrayValue xs) (ObjectValue es) = true :=
  ⟨fieldCompare_cross_class a b h, rfl, rfl, rfl, rfl, rfl, rfl, rfl, rfl⟩

/-- Witness for C2 at concrete inputs: a Null/Boolean pair compares by class
rank alone. -/
theorem c2_witness :
    fieldCompare NullValue TrueValue =
      cmp (orderClass NullValue.fieldType) (orderClass TrueValue.fieldType) :=
  (c2_cross_class_by_rank NullValue TrueValue [] ⟨0, 0⟩ [] [] (by decide)).1

/-- C3: Long and Double payloads are unified to a common numeric value
before comparing: `IntegerValue(3) == DoubleValue(3.0)`, and
`DoubleValue(2.5)` lies strictly between `IntegerValue(2)` and
`IntegerValue(3)`. -/
theorem c3_numbers_unified (i : ℤ) (q : ℚ) :
    fieldCompare (IntegerValue i) (DoubleValue (.finite q)) = cmp (i : ℚ) q ∧
    fieldCompare (DoubleValue (.finite q)) (IntegerValue i) = cmp q (i : ℚ) ∧
    feq (IntegerValue 3) (DoubleValue (.finite 3)) = true ∧
    flt (IntegerValue 2) (DoubleValue (.finite (5 / 2))) = true ∧
    flt (DoubleValue (.finite (5 / 2))) (IntegerValue 3) = true := by
  refine ⟨rfl, rfl, ?_, ?_, ?_⟩
  · rw [feq_true_iff]
    show cmp ((3 : ℤ) : ℚ) (3 : ℚ) = Ordering.eq
    rw [cmp_eq_eq_iff]; norm_num
  · rw [flt_true_iff]
    show cmp ((2 : ℤ) : ℚ) ((5 : ℚ) / 2) = Ordering.lt
    rw [cmp_eq_lt_iff]; norm_num
  · rw [flt_true_iff]
    show cmp ((5 : ℚ) / 2) ((3 : ℤ) : ℚ) = Ordering.lt
    rw [cmp_eq_lt_iff]; norm_num

/-- C4: a NaN-valued Double sorts strictly below every other value of the
Numbers class — every Long, every finite Double (including very negative
ones such as `-1e300`), and both infinities — and any two NaN-valued
Doubles compare equal under the ordering. -/
theorem c4_nan_sorts_below_numbers (i : ℤ) (q : ℚ) :
    flt NanValue (IntegerValue i) = true ∧
    flt NanValue (DoubleValue (.finite q)) = true ∧
    flt NanValue (DoubleValue .negInf) = true ∧
    flt NanValue (DoubleValue .posInf) = true ∧
    flt NanValue (DoubleValue (.finite (-(10 ^ 300)))) = true ∧
    feq NanValue NanValue = true ∧
    feq NanValue (DoubleValue .nan) = true :=
  ⟨rfl, rfl, rfl, rfl, rfl, rfl, rfl⟩

/-- C5: every relational and equality operator on `FieldValue` is derived
from `operator<` alone: `a == b` iff neither `a < b` nor `b < a`; `a > b`
iff `b < a`; `a >= b` iff not `a < b`; `a <= b` iff not `b < a`; and
`a != b` iff `a < b` or `b < a`. -/
theorem c5_operators_derived_from_lt (a b : FieldValue) :
    (feq a b = true ↔ ¬flt a b = true ∧ ¬flt b a = true) ∧
    (fgt a b = true ↔ flt b a = true) ∧
    (fge a b = true ↔ ¬flt a b = true) ∧
    (fle a b = true ↔ ¬flt b a = true) ∧
    (fne a b = true ↔ flt a b = true ∨ flt b a = true) := by
  cases hx : flt a b <;> cases hy : flt b a <;>
    simp [feq, fne, fle, fge, fgt, hx, hy]

/-- C6: comparison of a ServerTimestamp value never depends on its
previous-value payload or presence flag, and two ServerTimestamp values
with equal local write times compare equal. -/
theorem c6_server_timestamp_ignores_previous_value (lwt pv1 pv2 : Timestamp)
    (hp1 hp2 : Bool) (v : FieldValue) :
    fieldCompare (FieldValue.serverTimestamp ⟨lwt, pv1, hp1⟩) v =
      fieldCompare (FieldValue.serverTimestamp ⟨lwt, pv2, hp2⟩) v ∧
    fieldCompare v (FieldValue.serverTimestamp ⟨lwt, pv1, hp1⟩) =
      fieldCompare v (FieldValue.serverTimestamp ⟨lwt, pv2, hp2⟩) ∧
    feq (ServerTimestampValue lwt pv1) (ServerTimestampValue lwt pv2) = true ∧
    feq (ServerTimestampValue lwt pv1) (ServerTimestampValueNoPrev lwt) =
      true := by
  refine ⟨?_, ?_, ?_, ?_⟩
  · cases v <;> rfl
  · cases v <;> rfl
  · rw [feq_true_iff]; exact cmpTimestamp_refl lwt
  · rw [feq_true_iff]; exact cmpTimestamp_refl lwt

/-- C7: Array values compare lexicographically element-by-element with the
same recursive ordering, and an array that is a strict prefix of another
sorts strictly before it; in particular
`ArrayValue({IntegerValue(1)}) < ArrayValue({IntegerValue(1),
IntegerValue(2)})`. -/
theorem c7_array_lexicographic_prefix_first (xs ys rest : List FieldValue)
    (x y : FieldValue) :
    fieldCompare (ArrayValue xs) (ArrayValue ys) = cmpArray xs ys ∧
    cmpArray (x :: xs) (y :: ys) = (fieldCompare x y).then (cmpArray xs ys) ∧
    cmpArray [] [] = Ordering.eq ∧
    flt (ArrayValue xs) (ArrayValue (xs ++ y :: rest)) = true ∧
    flt (ArrayValue [IntegerValue 1])
      (ArrayValue [IntegerValue 1, IntegerValue 2]) = true := by
  refine ⟨rfl, rfl, rfl, ?_, ?_⟩
  · rw [flt_true_iff]
    exact cmpArray_self_append y xs rest
  · rw [flt_true_iff]
    exact cmpArray_self_append (IntegerValue 2) [IntegerValue 1] []

/-- C8: default construction yields the Null variant (`type()` returns
`Type::Null`) and constructs no payload — the value is the payload-free
`null` variant itself. -/
theorem c8_default_constructs_null :
    defaultFieldValue.fieldType = FieldType.Null ∧
    defaultFieldValue = FieldValue.null :=
  ⟨rfl, rfl⟩

/-- C9: no constructible `FieldValue` has `type()` equal to
`Type::Reference`: the enum reserves the tag, but the union has no payload
for it and no factory produces it, so the tag check is false for every
value. -/
theorem c9_reference_tag_unreachable (v : FieldValue) :
    (v.fieldType == FieldType.Reference) = false := by
  cases v <;> rfl

/-- C10: for tags from different order classes, comparing raw enum
positions agrees exactly with comparing backend order classes, because the
members of each multi-tag class are declared contiguously. -/
theorem c10_raw_rank_refines_class_rank (t1 t2 : FieldType)
    (h : orderClass t1 ≠ orderClass t2) :
    typeRank t1 < typeRank t2 ↔ orderClass t1 < orderClass t2 := by
  revert h
  cases t1 <;> cases t2 <;> decide

/-- Witness for C10 at concrete inputs: the Long and String tags. -/
theorem c10_witness :
    typeRank FieldType.Long < typeRank FieldType.String ↔
      orderClass FieldType.Long < orderClass FieldType.String :=
  c10_raw_rank_refines_class_rank FieldType.Long FieldType.String (by decide)

end FirestoreModel
